import Mathlib

/-!
Verification of the nlp-architect utility scripts: a shallow embedding of
`nlp_architect/models/libert/absa_utils.py`,
`examples/supervised_sentiment/customized_reviews.py`,
`reading_comprehension/tensorflow_implementation/train.py` and
`solutions/set_expansion/prepare_data.py`, together with theorems about the
embedded functions.
-/

namespace Absa

/-- Python's `list.insert(i, a)`: inserts `a` before position `i`,
clamping `i` to the list length (so an out-of-range `i` appends at the end). -/
def pyInsert (l : List α) (i : Nat) (a : α) : List α :=
  l.take i ++ a :: l.drop i

/-- Python `binarize` (absa_utils.py lines 143-148): each token-idx becomes a one-hot
vector of length `len(preds) + 1`. -/
def binarize (preds : List Int) : List (List Nat) :=
  preds.map (fun pred =>
    (List.range (preds.length + 1)).map (fun i => if Int.ofNat i = pred then 1 else 0))

/-- Python `binarize_multi_hot` (absa_utils.py lines 150-175): each head-index list
becomes a multi-hot vector of length `len(heads) + 1`; a token with no heads
(`head == []`) becomes an all-one vector instead of an all-zero one. -/
def binarize_multi_hot (heads : List (List Int)) : List (List Nat) :=
  heads.map (fun head =>
    let vec := (List.range (heads.length + 1)).map (fun i => if Int.ofNat i ∈ head then 1 else 0)
    if head = [] then List.replicate (heads.length + 1) 1 else vec)

/-- Inner loop of the first phase of `apply_heads_to_subtokens`
(absa_utils.py lines 126-131): for word `i`, insert one copy of row `i`
(or a same-length zero row when `zero_sub_tokens` is set) at position `i + 1`,
once per non-first subtoken; the counter is `len(sub_tokens[i]) - 1`. -/
def insertSubRows (zero : Bool) (i : Nat) : Nat → List (List Nat) → List (List Nat)
  | 0, hs => hs
  | c + 1, hs =>
      insertSubRows zero i c
        (pyInsert hs (i + 1) (if zero then (hs.getD i []).map (fun _ => 0) else hs.getD i []))

/-- Outer loop of the first phase of `apply_heads_to_subtokens`
(absa_utils.py lines 125-131): `i` runs from `len(sub_tokens) - 1` down to `0`. -/
def rowLoop (subTokens : List (List String)) (zero : Bool) : Nat → List (List Nat) → List (List Nat)
  | 0, hs => hs
  | i + 1, hs => rowLoop subTokens zero i (insertSubRows zero i ((subTokens.getD i []).length - 1) hs)

/-- Inner loop of the second phase of `apply_heads_to_subtokens`
(absa_utils.py line 136-137): insert `c` zeros at position `p` of a row. -/
def insertZeros (p : Nat) : Nat → List Nat → List Nat
  | 0, r => r
  | c + 1, r => insertZeros p c (pyInsert r p 0)

/-- Per-row loop of the second phase of `apply_heads_to_subtokens`
(absa_utils.py lines 135-137): for `i` from `len(sub_tokens) - 1` down to `0`,
insert `len(sub_tokens[i]) - 1` zeros at position `i + 2`. -/
def colLoop (subTokens : List (List String)) : Nat → List Nat → List Nat
  | 0, r => r
  | i + 1, r => colLoop subTokens i (insertZeros (i + 2) ((subTokens.getD i []).length - 1) r)

/-- Python `apply_heads_to_subtokens` (absa_utils.py lines 124-141). The function
mutates the Python list `heads` in place; this embedding returns the final
value of that list, which is also the contents of the returned `np.array`. -/
def apply_heads_to_subtokens (heads : List (List Nat)) (subTokens : List (List String))
    (zeroSubTokens : Bool := false) : List (List Nat) :=
  let h1 := rowLoop subTokens zeroSubTokens subTokens.length heads
  let h2 := h1.map (colLoop subTokens subTokens.length)
  List.replicate (h2.length + 1) 0 :: h2

/-- Python `pad_heads` (absa_utils.py lines 119-122): write `a[:64, :64]` into the
top-left corner of a 64-by-64 zero matrix. -/
def pad_heads (a : List (List Nat)) : List (List Nat) :=
  (List.range 64).map (fun i => (List.range 64).map (fun j => (a.getD i []).getD j 0))

/-- Word-level rows expanded with one copy per non-first subtoken
(a zero row instead when `zero` is set): the specified effect of the first
phase of `apply_heads_to_subtokens`. -/
def expandRows (zero : Bool) : List (List Nat) → List Nat → List (List Nat)
  | h :: hs, k :: ks =>
      h :: (List.replicate (k - 1) (if zero then h.map (fun _ => 0) else h) ++ expandRows zero hs ks)
  | hs, [] => hs
  | [], _ :: _ => []

/-- Columns `1, 2, ...` of a row, each followed by one inserted zero per
non-first subtoken of the corresponding word: the specified effect of the
second phase of `apply_heads_to_subtokens` on everything after column 0. -/
def expandTail : List Nat → List Nat → List Nat
  | x :: xs, k :: ks => x :: (List.replicate (k - 1) 0 ++ expandTail xs ks)
  | xs, [] => xs
  | [], _ :: _ => []

/-- A whole row with zero columns inserted: column 0 is kept, the remaining
columns are expanded by `expandTail`. -/
def expandRow (r : List Nat) (ks : List Nat) : List Nat :=
  r.take 1 ++ expandTail (r.drop 1) ks

/-- One call of `apply_heads_to_subtokens`, as seen by the caller: the final
value of the (mutated in place) `heads` argument, the final value of the
`sub_tokens` argument (which the source only reads), and the contents of the
returned `np.array`. -/
def apply_heads_to_subtokens_call (heads : List (List Nat)) (subTokens : List (List String))
    (zeroSubTokens : Bool) : List (List Nat) × List (List String) × List (List Nat) :=
  (apply_heads_to_subtokens heads subTokens zeroSubTokens, subTokens,
    apply_heads_to_subtokens heads subTokens zeroSubTokens)

end Absa

namespace Sentiment

/-- Python `review_to_sentiment` (customized_reviews.py lines 12-23). A review row is
`(score, text)` with `score = float(review[0])` modelled as a rational number
and `review[1]` the raw text; the repository's `normalize` function lives in
`nlp_architect.utils.generic` (outside the embedded sources) and is taken as a
parameter. -/
def review_to_sentiment (normalize : String → String) (review : ℚ × String) : String × String :=
  let norm_text := normalize review.2
  let review_sent := ("neutral", norm_text)
  if review.1 > 0 then ("positive", norm_text)
  else if review.1 < 0 then ("negative", norm_text)
  else review_sent

end Sentiment

namespace RC

/-- The command-line arguments of train.py that the restore branch and the
epoch loop read (lines 47-48 and 67-68). -/
structure RCArgs where
  restore_training : Bool
  epochs : Nat

/-- The checkpoint state of the model directory as TensorFlow reports it:
`checkpoint_path` is `ckpt.model_checkpoint_path` when
`tf.train.get_checkpoint_state` finds a checkpoint (train.py line 149), and
`gfileExists` is `tf.gfile.Exists`. -/
structure CkptEnv where
  checkpoint_path : Option String
  gfileExists : String → Bool

/-- How the TensorFlow session is initialized before training. -/
inductive SessStart where
  | restored (path : String)
  | freshInit
deriving DecidableEq

/-- The restore branch of train.py (lines 149-156): restore the saved session
when a checkpoint state exists, `--restore_training` is set, and the
checkpoint file (or its `.index` v2 variant) exists; otherwise run
`tf.global_variables_initializer()`. -/
def sessionStart (a : RCArgs) (e : CkptEnv) : SessStart :=
  match e.checkpoint_path with
  | some p =>
      if a.restore_training && (e.gfileExists p || e.gfileExists (p ++ ".index")) then
        .restored p
      else .freshInit
  | none => .freshInit

/-- The epoch loop of train.py (line 162): `for epoch in range(params_dict['epoch_no'])`,
where `epoch_no` is `args.epochs`. -/
def epochSchedule (a : RCArgs) : List Nat :=
  List.range a.epochs

end RC

namespace SetExp

/-- A spaCy token as prepare_data.py reads it: `idx` is the character offset
of the token in the document and `text` its text (a Python string, modelled
as a list of characters). -/
structure SpacyToken where
  idx : Nat
  text : List Char
deriving DecidableEq

/-- A spaCy noun-chunk span: character offsets `start_char` and `end_char`,
the span text and the span lemma. -/
structure SpacySpan where
  start_char : Nat
  end_char : Nat
  text : List Char
  lemma_ : List Char
deriving DecidableEq

/-- The four module-level dictionaries of prepare_data.py (lines 35-38),
modelled as association lists with at most one binding per key. -/
structure NPState where
  np2id : List (List Char × List Char)
  id2group : List (List Char × List (List Char))
  id2rep : List (List Char × List Char)
  np2count : List (List Char × Nat)
deriving DecidableEq

/-- The empty dictionaries the script starts with. -/
def initState : NPState :=
  { np2id := [], id2group := [], id2rep := [], np2count := [] }

/-- Python dictionary assignment `d[k] = v`: replace the binding of `k` if
present, otherwise append a new binding. -/
def setKey : List (List Char × β) → List Char → β → List (List Char × β)
  | [], k, v => [(k, v)]
  | (k', v') :: rest, k, v =>
      if k' = k then (k, v) :: rest else (k', v') :: setKey rest k v

/-- Python membership test `k in d`. -/
def hasKey (l : List (List Char × β)) (k : List Char) : Bool :=
  (l.lookup k).isSome

/-- Python `str.strip()`: drop whitespace from both ends. -/
def pyStrip (s : List Char) : List Char :=
  ((s.dropWhile Char.isWhitespace).reverse.dropWhile Char.isWhitespace).reverse

/-- Python `s.replace(' ', mark)`: replace every space character by the mark
string (the script's `--mark_char`, 1 or 2 characters). -/
def replaceSpaces (s : List Char) (mark : List Char) : List Char :=
  s.flatMap (fun c => if c = ' ' then mark else [c])

/-- The dictionary updates performed for a span the first time one of its
tokens is reached (prepare_data.py lines 96-113). `normalizer` stands for
`spacy_normalizer` (defined in `nlp_architect.utils.text_preprocess`, outside
the embedded sources), applied to the span text and the span lemma. The
Python count lookups `np2count[np]` and `np2count[id2rep[norm]]` are modelled
with default 0; in the states the script reaches, both keys are present. -/
def updateDicts (normalizer : List Char → List Char → List Char) (sp : SpacySpan)
    (st : NPState) : NPState :=
  let np := sp.text
  let np2count :=
    if hasKey st.np2count np then setKey st.np2count np ((st.np2count.lookup np).getD 0 + 1)
    else setKey st.np2count np 1
  let norm := normalizer np sp.lemma_
  let np2id := setKey st.np2id np norm
  let id2rep := if hasKey st.id2rep norm then st.id2rep else setKey st.id2rep norm np
  if hasKey st.id2group norm then
    let group := (st.id2group.lookup norm).getD []
    if np ∉ group then
      { np2id := np2id, id2group := setKey st.id2group norm (group ++ [np]),
        id2rep := id2rep, np2count := np2count }
    else if (np2count.lookup np).getD 0 > (np2count.lookup ((id2rep.lookup norm).getD [])).getD 0 then
      { np2id := np2id, id2group := st.id2group,
        id2rep := setKey id2rep norm np, np2count := np2count }
    else
      { np2id := np2id, id2group := st.id2group, id2rep := id2rep, np2count := np2count }
  else
    { np2id := np2id, id2group := setKey st.id2group norm [np],
      id2rep := setKey id2rep norm np, np2count := np2count }

/-- The marked text written for a span (prepare_data.py line 115):
`id2rep[norm].replace(' ', mark_char) + mark_char`, read from the state after
the dictionary update. -/
def markedText (mark : List Char) (norm : List Char) (st : NPState) : List Char :=
  replaceSpaces ((st.id2rep.lookup norm).getD []) mark ++ mark

/-- The mutable state of the marking loop over one document: the global
dictionaries, the current span (`span`), the remaining spans queue, the
`spanWritten` flag, and the trace of strings written to the marked corpus
file so far. -/
structure LoopState where
  st : NPState
  span : Option SpacySpan
  spans : List SpacySpan
  spanWritten : Bool
  out : List (List Char)
deriving DecidableEq

/-- Writing one outside token (prepare_data.py lines 88-89 and 92-93):
`token.text + ' '` is written when the stripped text is non-empty. -/
def writeToken (t : SpacyToken) (out : List (List Char)) : List (List Char) :=
  if 0 < (pyStrip t.text).length then out ++ [t.text ++ [' ']] else out

/-- The body of the token loop (prepare_data.py lines 86-123) for one token. -/
def markStep (normalizer : List Char → List Char → List Char) (mark : List Char)
    (t : SpacyToken) (ls : LoopState) : LoopState :=
  match ls.span with
  | none => { ls with out := writeToken t ls.out }
  | some sp =>
      if t.idx < sp.start_char ∨ sp.end_char ≤ t.idx then
        { ls with out := writeToken t ls.out }
      else
        let ls1 :=
          if ls.spanWritten then ls
          else
            let st' := updateDicts normalizer sp ls.st
            { ls with
              st := st'
              out := ls.out ++ [markedText mark (normalizer sp.text sp.lemma_) st' ++ [' ']]
              spanWritten := true }
        if t.idx + t.text.length = sp.end_char then
          match ls1.spans with
          | sp2 :: rest => { ls1 with span := some sp2, spans := rest, spanWritten := false }
          | [] => { ls1 with span := none, spanWritten := false }
        else ls1

/-- The token loop (prepare_data.py line 86) over a list of tokens. -/
def markLoop (normalizer : List Char → List Char → List Char) (mark : List Char) :
    List SpacyToken → LoopState → LoopState
  | [], ls => ls
  | t :: ts, ls => markLoop normalizer mark ts (markStep normalizer mark t ls)

/-- Processing one document (prepare_data.py lines 76-123): pop the first
span if any, clear `spanWritten`, then run the token loop. The trailing
newline written at line 124 is not part of the token/span trace. -/
def markDoc (normalizer : List Char → List Char → List Char) (mark : List Char)
    (tokens : List SpacyToken) (spans : List SpacySpan) (st : NPState) : LoopState :=
  markLoop normalizer mark tokens
    { st := st, span := spans.head?, spans := spans.tail, spanWritten := false, out := [] }

/-- What one outside token contributes to the output trace. -/
def outTokenWrites (t : SpacyToken) : List (List Char) :=
  if 0 < (pyStrip t.text).length then [t.text ++ [' ']] else []

/-- What a list of outside tokens contributes to the output trace: every
whitespace-stripped non-empty token verbatim followed by a space, in order. -/
def outsideWrites (ts : List SpacyToken) : List (List Char) :=
  ts.flatMap outTokenWrites

/-- A well-formed document decomposes into leading outside tokens followed by
chunks; one chunk is a noun-phrase span, the tokens that make it up, and the
outside tokens that follow it (before the next span). -/
structure Chunk where
  span : SpacySpan
  seg : List SpacyToken
  after : List SpacyToken
deriving DecidableEq

/-- The token list a chunk contributes to the document. -/
def chunkTokens (c : Chunk) : List SpacyToken :=
  c.seg ++ c.after

/-- Token `t` lies outside span `sp` for the loop's test at line 91:
`token.idx < span.start_char or token.idx >= span.end_char`. -/
def outsideSpan (t : SpacyToken) (sp : SpacySpan) : Prop :=
  t.idx < sp.start_char ∨ sp.end_char ≤ t.idx

instance (t : SpacyToken) (sp : SpacySpan) : Decidable (outsideSpan t sp) :=
  inferInstanceAs (Decidable (_ ∨ _))

/-- Token `t` closes span `sp` for the loop's test at line 118:
`token.idx + len(token.text) == span.end_char`. -/
def closesSpan (t : SpacyToken) (sp : SpacySpan) : Prop :=
  t.idx + t.text.length = sp.end_char

instance (t : SpacyToken) (sp : SpacySpan) : Decidable (closesSpan t sp) :=
  inferInstanceAs (Decidable (_ = _))

/-- A chunk is well formed when its span's token segment is non-empty, all its
tokens lie inside the span, only its last token closes the span, and its last
token does close the span (as spaCy's token-aligned noun chunks guarantee). -/
def chunkWF (c : Chunk) : Prop :=
  c.seg ≠ [] ∧ (∀ t ∈ c.seg, ¬ outsideSpan t c.span) ∧
    (∀ t ∈ c.seg.dropLast, ¬ closesSpan t c.span) ∧
    (∀ t ∈ c.seg.getLast?.toList, closesSpan t c.span)

instance (c : Chunk) : Decidable (chunkWF c) :=
  inferInstanceAs (Decidable (_ ∧ _ ∧ _ ∧ _))

/-- The outside tokens following a chunk lie outside the next chunk's span
(no condition when there is no next chunk). -/
def afterWF (c : Chunk) (cs : List Chunk) : Prop :=
  ∀ c' ∈ cs.head?.toList, ∀ t ∈ c.after, outsideSpan t c'.span

instance (c : Chunk) (cs : List Chunk) : Decidable (afterWF c cs) :=
  inferInstanceAs (Decidable (∀ c' ∈ cs.head?.toList, ∀ t ∈ c.after, outsideSpan t c'.span))

/-- A chunk list is well formed when every chunk is and the outside tokens
following each span lie outside the next span. -/
def chunksWF : List Chunk → Prop
  | [] => True
  | c :: cs => chunkWF c ∧ afterWF c cs ∧ chunksWF cs

instance instDecChunksWF : (cs : List Chunk) → Decidable (chunksWF cs)
  | [] => inferInstanceAs (Decidable True)
  | _ :: cs =>
      have := instDecChunksWF cs
      inferInstanceAs (Decidable (_ ∧ _ ∧ _))

/-- The leading outside tokens lie outside the first span (if any). -/
def preWF (pre : List SpacyToken) (cs : List Chunk) : Prop :=
  ∀ c ∈ cs.head?.toList, ∀ t ∈ pre, outsideSpan t c.span

instance (pre : List SpacyToken) (cs : List Chunk) : Decidable (preWF pre cs) :=
  inferInstanceAs (Decidable (∀ c ∈ cs.head?.toList, ∀ t ∈ pre, outsideSpan t c.span))

/-- The specified processing of the chunks of one document: each span updates
the dictionaries once and is written exactly once, as its group's current
representative with spaces replaced by the mark character and the mark
character appended (plus the separating space), followed by the writes of the
outside tokens after it. -/
def specProcess (normalizer : List Char → List Char → List Char) (mark : List Char) :
    List Chunk → NPState → NPState × List (List Char)
  | [], st => (st, [])
  | c :: cs, st =>
      let st' := updateDicts normalizer c.span st
      let r := specProcess normalizer mark cs st'
      (r.1, (markedText mark (normalizer c.span.text c.span.lemma_) st' ++ [' ']) ::
        (outsideWrites c.after ++ r.2))

/-- The invariant of the grouping dictionaries: `id2group` and `id2rep` bind
the same keys (in the same order, as the script only ever extends both
together), and the representative of every key is a member of its group. -/
def NPInv (st : NPState) : Prop :=
  st.id2group.map Prod.fst = st.id2rep.map Prod.fst ∧
    ∀ norm g r, st.id2group.lookup norm = some g → st.id2rep.lookup norm = some r → r ∈ g


/-- Example document "I ate red apples" for concrete evaluation: four tokens
at character offsets 0, 2, 6 and 10. -/
def exTokens : List SpacyToken :=
  [⟨0, ['I']⟩, ⟨2, ['a', 't', 'e']⟩, ⟨6, ['r', 'e', 'd']⟩,
    ⟨10, ['a', 'p', 'p', 'l', 'e', 's']⟩]

/-- The noun chunk "red apples" of the example document (characters 6-16),
with lemma "red apple". -/
def exSpan : SpacySpan :=
  ⟨6, 16, ['r', 'e', 'd', ' ', 'a', 'p', 'p', 'l', 'e', 's'],
    ['r', 'e', 'd', ' ', 'a', 'p', 'p', 'l', 'e']⟩

/-- The example document's single chunk: the span, its two tokens, and no
trailing outside tokens. -/
def exChunk : Chunk :=
  ⟨exSpan, [⟨6, ['r', 'e', 'd']⟩, ⟨10, ['a', 'p', 'p', 'l', 'e', 's']⟩], []⟩

/-- A concrete stand-in for `spacy_normalizer` in examples: use the span
lemma as the normalized form. -/
def exNorm : List Char → List Char → List Char := fun _ l => l

end SetExp

/-! ## Theorems about the ABSA head-alignment utilities -/

namespace Absa

theorem pyInsert_length (l : List α) (i : Nat) (a : α) :
    (pyInsert l i a).length = l.length + 1 := by
simp only [pyInsert, List.length_append, List.length_take, List.length_cons, List.length_drop]
omega

theorem insertZeros_length (p : Nat) : ∀ (c : Nat) (r : List Nat),
    (insertZeros p c r).length = r.length + c
  | 0, r => by simp [insertZeros]
  | c + 1, r => by
      rw [insertZeros, insertZeros_length p c, pyInsert_length]
      omega

theorem insertZeros_eq (p : Nat) : ∀ (c : Nat) (r : List Nat), p ≤ r.length →
    insertZeros p c r = r.take p ++ (List.replicate c 0 ++ r.drop p)
  | 0, r, _ => by simp [insertZeros]
  | c + 1, r, h => by
      rw [insertZeros, insertZeros_eq p c (pyInsert r p 0) (by rw [pyInsert_length]; omega)]
      unfold pyInsert
      rw [List.take_append_of_le_length (by simp only [List.length_take]; omega),
        List.drop_append_of_le_length (by simp only [List.length_take]; omega)]
      rw [List.take_take, Nat.min_self,
        List.drop_of_length_le (by simp only [List.length_take]; omega), List.replicate_succ']
      simp

theorem insertSubRows_length (zero : Bool) (i : Nat) : ∀ (c : Nat) (hs : List (List Nat)),
    (insertSubRows zero i c hs).length = hs.length + c
  | 0, hs => by simp [insertSubRows]
  | c + 1, hs => by
      rw [insertSubRows, insertSubRows_length zero i c, pyInsert_length]
      omega

theorem getD_pyInsert_lt (l : List α) (i j : Nat) (a : α) (d : α) (hj : j < i)
    (hi : i ≤ l.length) : (pyInsert l i a).getD j d = l.getD j d := by
rw [pyInsert, List.getD_eq_getElem?_getD, List.getD_eq_getElem?_getD,
  List.getElem?_append_left (by simp only [List.length_take]; omega), List.getElem?_take_of_lt hj]

theorem insertSubRows_eq (zero : Bool) (i : Nat) : ∀ (c : Nat) (hs : List (List Nat)),
    i < hs.length →
    insertSubRows zero i c hs =
      hs.take (i + 1) ++
        (List.replicate c (if zero then (hs.getD i []).map (fun _ => 0) else hs.getD i []) ++
          hs.drop (i + 1))
  | 0, hs, _ => by simp [insertSubRows]
  | c + 1, hs, h => by
      rw [insertSubRows, insertSubRows_eq zero i c _ (by rw [pyInsert_length]; omega)]
      have hgd : (pyInsert hs (i + 1) (if zero then (hs.getD i []).map (fun _ => 0) else hs.getD i [])).getD i []
          = hs.getD i [] := getD_pyInsert_lt _ _ _ _ _ (Nat.lt_succ_self i) (by omega)
      rw [hgd]
      unfold pyInsert
      rw [List.take_append_of_le_length (by simp only [List.length_take]; omega),
        List.drop_append_of_le_length (by simp only [List.length_take]; omega)]
      rw [List.take_take, Nat.min_self,
        List.drop_of_length_le (by simp only [List.length_take]; omega), List.replicate_succ']
      simp

theorem expandTail_snoc : ∀ (xs kss : List Nat) (x k : Nat), xs.length = kss.length →
    expandTail (xs ++ [x]) (kss ++ [k]) = expandTail xs kss ++ (x :: List.replicate (k - 1) 0)
  | [], [], x, k, _ => by simp [expandTail]
  | [], _ :: _, _, _, h => by simp at h
  | _ :: _, [], _, _, h => by simp at h
  | a :: xs, b :: kss, x, k, h => by
      simp only [List.cons_append, expandTail, List.append_eq]
      rw [expandTail_snoc xs kss x k (by simpa using h)]
      simp

theorem expandRows_snoc (zero : Bool) : ∀ (xs : List (List Nat)) (kss : List Nat)
    (x : List Nat) (k : Nat), xs.length = kss.length →
    expandRows zero (xs ++ [x]) (kss ++ [k])
      = expandRows zero xs kss ++
          (x :: List.replicate (k - 1) (if zero then x.map (fun _ => 0) else x))
  | [], [], x, k, _ => by simp [expandRows]
  | [], _ :: _, _, _, h => by simp at h
  | _ :: _, [], _, _, h => by simp at h
  | a :: xs, b :: kss, x, k, h => by
      simp only [List.cons_append, expandRows, List.append_eq]
      rw [expandRows_snoc zero xs kss x k (by simpa using h)]
      simp

theorem colLoop_eq (st : List (List String)) : ∀ (n : Nat) (r : List Nat),
    n ≤ st.length → n + 1 ≤ r.length →
    colLoop st n r
      = r.take 1 ++ (expandTail ((r.drop 1).take n) ((st.map (fun s => s.length)).take n)
          ++ r.drop (n + 1))
  | 0, r, _, _ => by
      simp only [colLoop, List.take_zero, expandTail, List.nil_append]
      rw [List.take_append_drop]
  | n + 1, r, hst, hr => by
      have hstn : n < st.length := by omega
      have hy : n + 1 < r.length := by omega
      have hgd : st.getD n [] = st[n] := by
        rw [List.getD_eq_getElem?_getD, List.getElem?_eq_getElem hstn, Option.getD_some]
      rw [colLoop, hgd, insertZeros_eq (n + 2) _ r (by omega),
        colLoop_eq st n _ (by omega)
          (by simp only [List.length_append, List.length_take, List.length_replicate,
                List.length_drop]; omega)]
      have h1 : ((r.take (n + 2)) ++ (List.replicate (st[n].length - 1) 0 ++ r.drop (n + 2))).take 1
          = r.take 1 := by
        rw [List.take_append_of_le_length (by simp only [List.length_take]; omega),
          List.take_take, Nat.min_eq_left (by omega)]
      have h2 : (((r.take (n + 2)) ++ (List.replicate (st[n].length - 1) 0 ++ r.drop (n + 2))).drop 1).take n
          = (r.drop 1).take n := by
        rw [List.drop_append_of_le_length (by simp only [List.length_take]; omega),
          List.take_append_of_le_length (by simp only [List.length_drop, List.length_take]; omega),
          List.drop_take, List.take_take]
        have hn : n + 2 - 1 = n + 1 := by omega
        rw [hn, Nat.min_eq_left (by omega)]
      have h3 : ((r.take (n + 2)) ++ (List.replicate (st[n].length - 1) 0 ++ r.drop (n + 2))).drop (n + 1)
          = r[n + 1] :: (List.replicate (st[n].length - 1) 0 ++ r.drop (n + 2)) := by
        rw [List.drop_append_of_le_length (by simp only [List.length_take]; omega),
          List.drop_take]
        have hn : n + 2 - (n + 1) = 1 := by omega
        have hc : r.drop (n + 1) = r[n + 1] :: r.drop (n + 2) := by
          have h := List.drop_eq_getElem_cons hy
          simp only [Nat.add_assoc] at h
          exact h
        rw [hn, hc]
        simp only [List.take_succ_cons, List.take_zero, List.cons_append, List.nil_append]
      have h4 : (r.drop 1).take (n + 1) = (r.drop 1).take n ++ [r[n + 1]] := by
        rw [List.take_succ, List.getElem?_drop]
        have hn : 1 + n = n + 1 := by omega
        rw [hn, List.getElem?_eq_getElem hy]
        simp
      have h5 : ((st.map (fun s => s.length)).take (n + 1))
          = (st.map (fun s => s.length)).take n ++ [st[n].length] := by
        rw [List.take_succ, List.getElem?_eq_getElem (by simpa using hstn)]
        simp
      rw [h1, h2, h3, h4, h5,
        expandTail_snoc _ _ _ _
          (by simp only [List.length_take, List.length_drop, List.length_map]; omega)]
      simp

theorem rowLoop_eq (st : List (List String)) (zero : Bool) : ∀ (n : Nat) (hs : List (List Nat)),
    n ≤ st.length → n ≤ hs.length →
    rowLoop st zero n hs
      = expandRows zero (hs.take n) ((st.map (fun s => s.length)).take n) ++ hs.drop n
  | 0, hs, _, _ => by simp [rowLoop, expandRows]
  | n + 1, hs, hst, hhs => by
      have hstn : n < st.length := by omega
      have hn : n < hs.length := by omega
      have hgd : st.getD n [] = st[n] := by
        rw [List.getD_eq_getElem?_getD, List.getElem?_eq_getElem hstn, Option.getD_some]
      have hgd2 : hs.getD n [] = hs[n] := by
        rw [List.getD_eq_getElem?_getD, List.getElem?_eq_getElem hn, Option.getD_some]
      rw [rowLoop, hgd, insertSubRows_eq zero n _ hs hn, hgd2,
        rowLoop_eq st zero n _ (by omega)
          (by simp only [List.length_append, List.length_take, List.length_replicate,
                List.length_cons, List.length_drop]; omega)]
      have h1 : ((hs.take (n + 1)) ++
            (List.replicate (st[n].length - 1) (if zero then hs[n].map (fun _ => 0) else hs[n]) ++
              hs.drop (n + 1))).take n
          = hs.take n := by
        rw [List.take_append_of_le_length (by simp only [List.length_take]; omega),
          List.take_take, Nat.min_eq_left (by omega)]
      have h2 : ((hs.take (n + 1)) ++
            (List.replicate (st[n].length - 1) (if zero then hs[n].map (fun _ => 0) else hs[n]) ++
              hs.drop (n + 1))).drop n
          = hs[n] :: (List.replicate (st[n].length - 1)
              (if zero then hs[n].map (fun _ => 0) else hs[n]) ++ hs.drop (n + 1)) := by
        rw [List.drop_append_of_le_length (by simp only [List.length_take]; omega),
          List.drop_take]
        have hd : n + 1 - n = 1 := by omega
        rw [hd, List.drop_eq_getElem_cons hn]
        simp only [List.take_succ_cons, List.take_zero, List.cons_append, List.nil_append]
      have h4 : hs.take (n + 1) = hs.take n ++ [hs[n]] := by
        rw [List.take_succ, List.getElem?_eq_getElem hn]
        simp
      have h5 : ((st.map (fun s => s.length)).take (n + 1))
          = (st.map (fun s => s.length)).take n ++ [st[n].length] := by
        rw [List.take_succ, List.getElem?_eq_getElem (by simpa using hstn)]
        simp
      rw [h1, h2, h4, h5,
        expandRows_snoc zero _ _ _ _
          (by simp only [List.length_take, List.length_map]; omega)]
      simp

theorem rowLoop_length (st : List (List String)) (zero : Bool) : ∀ (n : Nat) (hs : List (List Nat)),
    (rowLoop st zero n hs).length
      = hs.length + ((List.range n).map (fun i => (st.getD i []).length - 1)).sum
  | 0, hs => by simp [rowLoop]
  | n + 1, hs => by
      rw [rowLoop, rowLoop_length st zero n, insertSubRows_length, List.range_succ]
      simp
      omega

theorem expandTail_length : ∀ (xs kss : List Nat), xs.length = kss.length →
    (expandTail xs kss).length = (kss.map (fun k => k - 1)).sum + kss.length
  | [], [], _ => by simp [expandTail]
  | [], _ :: _, h => by simp at h
  | _ :: _, [], h => by simp at h
  | a :: xs, b :: kss, h => by
      simp only [expandTail, List.length_cons, List.length_append, List.length_replicate,
        List.map_cons, List.sum_cons]
      rw [expandTail_length xs kss (by simpa using h)]
      omega

theorem expandRows_length (zero : Bool) : ∀ (xs : List (List Nat)) (kss : List Nat),
    xs.length = kss.length →
    (expandRows zero xs kss).length = (kss.map (fun k => k - 1)).sum + kss.length
  | [], [], _ => by simp [expandRows]
  | [], _ :: _, h => by simp at h
  | _ :: _, [], h => by simp at h
  | a :: xs, b :: kss, h => by
      simp only [expandRows, List.length_cons, List.length_append, List.length_replicate,
        List.map_cons, List.sum_cons]
      rw [expandRows_length zero xs kss (by simpa using h)]
      omega

theorem sum_pred_add_length (kss : List Nat) (h : ∀ k ∈ kss, 1 ≤ k) :
    (kss.map (fun k => k - 1)).sum + kss.length = kss.sum := by
induction kss with
| nil => simp
| cons b kss ih =>
    simp only [List.map_cons, List.sum_cons, List.length_cons]
    have hb : 1 ≤ b := h b (List.mem_cons_self b kss)
    have ih2 := ih (fun k hk => h k (List.mem_cons_of_mem b hk))
    omega

theorem expandRows_row_length (zero : Bool) (L : Nat) : ∀ (xs : List (List Nat)) (kss : List Nat),
    (∀ r ∈ xs, r.length = L) → ∀ r ∈ expandRows zero xs kss, r.length = L
  | [], [], _ => by simp [expandRows]
  | [], _ :: _, _ => by simp [expandRows]
  | x :: xs, [], hx => by simpa [expandRows] using hx
  | x :: xs, b :: kss, hx => by
      intro r hr
      rw [expandRows] at hr
      have hxl := hx x (List.mem_cons_self x xs)
      rcases List.mem_cons.mp hr with rfl | hr2
      · exact hxl
      rcases List.mem_append.mp hr2 with hr3 | hr4
      · have hre := List.eq_of_mem_replicate hr3
        subst hre
        by_cases hz : zero = true
        · simp [hz, hxl]
        · simp [hz, hxl]
      · exact expandRows_row_length zero L xs kss
          (fun r h => hx r (List.mem_cons_of_mem x h)) r hr4

theorem binarize_multi_hot_length (heads : List (List Int)) :
    (binarize_multi_hot heads).length = heads.length := by
simp [binarize_multi_hot]

theorem binarize_multi_hot_row_length (heads : List (List Int)) :
    ∀ row ∈ binarize_multi_hot heads, row.length = heads.length + 1 := by
intro row hrow
simp only [binarize_multi_hot, List.mem_map] at hrow
obtain ⟨head, _, rfl⟩ := hrow
by_cases h : head = []
· simp [h]
· rw [if_neg h, List.length_map, List.length_range]

/-- The combined closed form of `apply_heads_to_subtokens` applied to a
binarized head matrix: first phase duplicates rows, second phase expands
columns, and the all-zero `[CLS]` row is prepended. -/
theorem apply_heads_closed (heads : List (List Int)) (st : List (List String)) (zero : Bool)
    (hlen : heads.length = st.length) :
    apply_heads_to_subtokens (binarize_multi_hot heads) st zero
      = List.replicate
            ((expandRows zero (binarize_multi_hot heads) (st.map (fun s => s.length))).length + 1) 0
          :: (expandRows zero (binarize_multi_hot heads) (st.map (fun s => s.length))).map
              (fun r => expandRow r (st.map (fun s => s.length))) := by
have hB : (binarize_multi_hot heads).length = st.length := by
  rw [binarize_multi_hot_length, hlen]
have hrow : ∀ r ∈ binarize_multi_hot heads, r.length = st.length + 1 := by
  intro r hr
  rw [binarize_multi_hot_row_length heads r hr, hlen]
have hK : (st.map (fun s => s.length)).length ≤ st.length := by
  rw [List.length_map]
have h1 : rowLoop st zero st.length (binarize_multi_hot heads)
    = expandRows zero (binarize_multi_hot heads) (st.map (fun s => s.length)) := by
  rw [rowLoop_eq st zero st.length _ (le_refl _) (le_of_eq hB.symm),
    List.take_of_length_le (le_of_eq hB), List.take_of_length_le hK,
    List.drop_of_length_le (le_of_eq hB), List.append_nil]
rw [apply_heads_to_subtokens, h1]
have h2 : (expandRows zero (binarize_multi_hot heads) (st.map (fun s => s.length))).map
      (colLoop st st.length)
    = (expandRows zero (binarize_multi_hot heads) (st.map (fun s => s.length))).map
      (fun r => expandRow r (st.map (fun s => s.length))) := by
  apply List.map_congr_left
  intro r hr
  have hrl : r.length = st.length + 1 :=
    expandRows_row_length zero (st.length + 1) _ _ hrow r hr
  rw [colLoop_eq st st.length r (le_refl _) (by omega), expandRow]
  have hd : (r.drop 1).length ≤ st.length := by
    simp only [List.length_drop]
    omega
  have hD : r.length ≤ st.length + 1 := by omega
  rw [List.take_of_length_le hd, List.take_of_length_le hK,
    List.drop_of_length_le hD, List.append_nil]
rw [h2]
simp

/-- The number of rows `expandRows` produces from a binarized head matrix:
the total number of subtokens. -/
theorem expandRows_binarize_length (heads : List (List Int)) (st : List (List String))
    (zero : Bool) (hlen : heads.length = st.length) (hne : ∀ s ∈ st, s ≠ []) :
    (expandRows zero (binarize_multi_hot heads) (st.map (fun s => s.length))).length
      = (st.map (fun s => s.length)).sum := by
rw [expandRows_length zero _ _ (by rw [binarize_multi_hot_length, hlen, List.length_map])]
exact sum_pred_add_length _ (by
  intro k hk
  simp only [List.mem_map] at hk
  obtain ⟨s, hs, rfl⟩ := hk
  exact List.length_pos.mpr (hne s hs))

theorem expandRow_length (r : List Nat) (ks : List Nat) (hr : r.length = ks.length + 1) :
    (expandRow r ks).length = (ks.map (fun k => k - 1)).sum + ks.length + 1 := by
rw [expandRow, List.length_append, List.length_take,
  expandTail_length _ _ (by simp only [List.length_drop]; omega)]
omega

/-- Claim C1: `apply_heads_to_subtokens` on a `binarize_multi_hot` matrix re-maps the
word-level graph onto subtoken positions: row 0 is an all-zero `[CLS]` row of
width `m + 1` (`m` the total subtoken count), and the remaining rows are the
word rows each followed by one copy per non-first subtoken (a zero row when
`zero_sub_tokens` is set), with one zero column inserted after a word's column
per non-first subtoken of that word. -/
theorem apply_heads_to_subtokens_spec (heads : List (List Int)) (st : List (List String))
    (zero : Bool) (hlen : heads.length = st.length) (hne : ∀ s ∈ st, s ≠ []) :
    apply_heads_to_subtokens (binarize_multi_hot heads) st zero
      = List.replicate ((st.map (fun s => s.length)).sum + 1) 0
          :: (expandRows zero (binarize_multi_hot heads) (st.map (fun s => s.length))).map
              (fun r => expandRow r (st.map (fun s => s.length))) := by
rw [apply_heads_closed heads st zero hlen,
  expandRows_binarize_length heads st zero hlen hne]

/-- Witness for C1 at the docstring example `[[1], [0, 1]]` with the second
word split into two subtokens. -/
theorem apply_heads_to_subtokens_spec_witness :
    apply_heads_to_subtokens (binarize_multi_hot [[1], [0, 1]]) [["a"], ["b", "c"]] false
      = List.replicate (((([["a"], ["b", "c"]] : List (List String)).map (fun s => s.length)).sum) + 1) 0
          :: (expandRows false (binarize_multi_hot [[1], [0, 1]])
                (([["a"], ["b", "c"]] : List (List String)).map (fun s => s.length))).map
              (fun r => expandRow r (([["a"], ["b", "c"]] : List (List String)).map (fun s => s.length))) :=
  apply_heads_to_subtokens_spec [[1], [0, 1]] [["a"], ["b", "c"]] false (by decide) (by decide)

/-- Claim C2: on matching inputs the matrix returned by
`apply_heads_to_subtokens (binarize_multi_hot heads) sub_tokens` is square of
size `m + 1`, where `m` is the total number of subtokens — so the assertion
`binary_heads.shape[0] == binary_heads.shape[1] == len(tokens) + 1` in
`convert_examples_to_features` holds whenever the tokenizer splits each word
into exactly the subtokens listed in `sub_toks`. -/
theorem apply_heads_to_subtokens_square (heads : List (List Int)) (st : List (List String))
    (hlen : heads.length = st.length) (hne : ∀ s ∈ st, s ≠ []) :
    (apply_heads_to_subtokens (binarize_multi_hot heads) st false).length
        = (st.map (fun s => s.length)).sum + 1
      ∧ ∀ row ∈ apply_heads_to_subtokens (binarize_multi_hot heads) st false,
          row.length = (st.map (fun s => s.length)).sum + 1 := by
have hkl : (st.map (fun s => s.length)).length = st.length := List.length_map st _
have hone : ∀ k ∈ st.map (fun s => s.length), 1 ≤ k := by
  intro k hk
  simp only [List.mem_map] at hk
  obtain ⟨s, hs, rfl⟩ := hk
  exact List.length_pos.mpr (hne s hs)
rw [apply_heads_closed heads st false hlen]
constructor
· rw [List.length_cons, List.length_map, expandRows_binarize_length heads st false hlen hne]
· intro row hrow
  rcases List.mem_cons.mp hrow with rfl | hmem
  · rw [List.length_replicate, expandRows_binarize_length heads st false hlen hne]
  · simp only [List.mem_map] at hmem
    obtain ⟨r, hr, rfl⟩ := hmem
    have hrl : r.length = st.length + 1 := by
      refine expandRows_row_length false (st.length + 1) _ _ ?_ r hr
      intro q hq
      rw [binarize_multi_hot_row_length heads q hq, hlen]
    rw [expandRow_length r _ (by rw [hrl, hkl]),
      ← sum_pred_add_length (st.map (fun s => s.length)) hone]

/-- Witness for C2 at the docstring example. -/
theorem apply_heads_to_subtokens_square_witness :
    (apply_heads_to_subtokens (binarize_multi_hot [[1], [0, 1]]) [["a"], ["b", "c"]] false).length
      = ((([["a"], ["b", "c"]] : List (List String)).map (fun s => s.length)).sum) + 1 :=
  (apply_heads_to_subtokens_square [[1], [0, 1]] [["a"], ["b", "c"]] (by decide) (by decide)).1

/-- Claim C3: `pad_heads` returns a 64-by-64 matrix that agrees with its input
wherever both are defined and is zero everywhere else. -/
theorem pad_heads_spec (a : List (List Nat)) :
    (pad_heads a).length = 64
      ∧ (∀ row ∈ pad_heads a, row.length = 64)
      ∧ ∀ i j : Nat, i < 64 → j < 64 →
          ((pad_heads a).getD i []).getD j 0
            = if i < a.length ∧ j < (a.getD i []).length then (a.getD i []).getD j 0 else 0 := by
refine ⟨by simp [pad_heads], ?_, ?_⟩
· intro row hrow
  simp only [pad_heads, List.mem_map] at hrow
  obtain ⟨i, _, rfl⟩ := hrow
  simp
· intro i j hi hj
  have hrow : (pad_heads a).getD i [] = (List.range 64).map (fun j => (a.getD i []).getD j 0) := by
    rw [pad_heads, List.getD_eq_getElem?_getD,
      List.getElem?_eq_getElem (by simpa using hi)]
    simp
  rw [hrow, List.getD_eq_getElem?_getD, List.getElem?_eq_getElem (by simpa using hj)]
  simp only [List.getElem_map, List.getElem_range, Option.getD_some]
  by_cases hdef : i < a.length ∧ j < (a.getD i []).length
  · rw [if_pos hdef]
  · rw [if_neg hdef]
    rcases Nat.lt_or_ge i a.length with hia | hia
    · have hja : (a.getD i []).length ≤ j := by
        rcases Nat.lt_or_ge j (a.getD i []).length with hje | hje
        · exact absurd ⟨hia, hje⟩ hdef
        · exact hje
      exact List.getD_eq_default _ _ hja
    · rw [List.getD_eq_default a [] hia]
      simp

/-- Witness for C3: a 1-by-1 input is copied into the corner. -/
theorem pad_heads_spec_witness :
    ((pad_heads [[5]]).getD 0 []).getD 0 0
      = if 0 < ([[5]] : List (List Nat)).length ∧ 0 < (([[5]] : List (List Nat)).getD 0 []).length
          then (([[5]] : List (List Nat)).getD 0 []).getD 0 0 else 0 :=
  (pad_heads_spec [[5]]).2.2 0 0 (by decide) (by decide)

/-- Claim C4 counterexample: `apply_heads_to_subtokens` does not leave the caller's
`heads` list unchanged. Already on the empty input, line 140 of absa_utils.py
(`heads.insert(0, [0] * (len(heads) + 1))`) mutates the caller's list to
`[[0]]`, so the final value of the `heads` argument differs from the value
passed in. -/
theorem apply_heads_to_subtokens_mutates_cex :
    (apply_heads_to_subtokens_call [] [] false).1 ≠ ([] : List (List Nat)) := by decide

theorem range_map_getD_sum (f : List String → Nat) : ∀ (st : List (List String)),
    ((List.range st.length).map (fun i => f (st.getD i []))).sum = (st.map f).sum
  | [] => by simp
  | a :: l => by
      rw [List.length_cons, List.range_succ_eq_map, List.map_cons, List.map_map, List.sum_cons]
      have hmap : ((List.range l.length).map ((fun i => f ((a :: l).getD i [])) ∘ Nat.succ))
          = (List.range l.length).map (fun i => f (l.getD i [])) := by
        apply List.map_congr_left
        intro i _
        rfl
      rw [hmap, range_map_getD_sum f l, List.map_cons, List.sum_cons]
      rfl

/-- Claim C4 (amended): `apply_heads_to_subtokens` is deterministic in its argument
values and never mutates `sub_tokens`, but it mutates the caller's `heads`
list in place: after the call the caller's `heads` equals the returned matrix
and has grown to `len(heads) + sum of non-first subtoken counts + 1` rows
(one inserted row per non-first subtoken plus the prepended `[CLS]` row). -/
theorem apply_heads_to_subtokens_mutation (heads : List (List Nat)) (st : List (List String))
    (zero : Bool) :
    (apply_heads_to_subtokens_call heads st zero).2.1 = st
      ∧ (apply_heads_to_subtokens_call heads st zero).1
          = (apply_heads_to_subtokens_call heads st zero).2.2
      ∧ (apply_heads_to_subtokens_call heads st zero).1.length
          = heads.length + (st.map (fun s => s.length - 1)).sum + 1 := by
refine ⟨rfl, rfl, ?_⟩
show (apply_heads_to_subtokens heads st zero).length = _
rw [apply_heads_to_subtokens]
simp only [List.length_cons, List.length_map]
rw [rowLoop_length]
rw [range_map_getD_sum (fun s => s.length - 1) st]

/-- Claim C8: `binarize_multi_hot` maps `n` head lists to `n` vectors of length
`n + 1`; a row has a 1 exactly at the indices its head list contains, except
that an empty head list yields the all-one vector. -/
theorem binarize_multi_hot_spec (heads : List (List Int)) :
    (binarize_multi_hot heads).length = heads.length
      ∧ ∀ i : Nat, i < heads.length →
          ((binarize_multi_hot heads).getD i []).length = heads.length + 1
          ∧ (heads.getD i [] = [] →
              (binarize_multi_hot heads).getD i [] = List.replicate (heads.length + 1) 1)
          ∧ (heads.getD i [] ≠ [] → ∀ j : Nat, j < heads.length + 1 →
              ((binarize_multi_hot heads).getD i []).getD j 0
                = if Int.ofNat j ∈ heads.getD i [] then 1 else 0) := by
refine ⟨binarize_multi_hot_length heads, ?_⟩
intro i hi
have hgd : heads.getD i [] = heads[i] := by
  rw [List.getD_eq_getElem?_getD, List.getElem?_eq_getElem hi, Option.getD_some]
have hrow : (binarize_multi_hot heads).getD i []
    = if heads[i] = [] then List.replicate (heads.length + 1) 1
      else (List.range (heads.length + 1)).map (fun j => if Int.ofNat j ∈ heads[i] then 1 else 0) := by
  rw [List.getD_eq_getElem?_getD,
    List.getElem?_eq_getElem (by rw [binarize_multi_hot_length]; exact hi)]
  simp only [binarize_multi_hot, List.getElem_map, Option.getD_some]
refine ⟨?_, ?_, ?_⟩
· rw [hrow]
  by_cases h : heads[i] = []
  · rw [if_pos h, List.length_replicate]
  · rw [if_neg h, List.length_map, List.length_range]
· intro hemp
  rw [hgd] at hemp
  rw [hrow, if_pos hemp]
· intro hne j hj
  rw [hgd] at hne
  rw [hrow, if_neg hne, hgd, List.getD_eq_getElem?_getD,
    List.getElem?_eq_getElem (by simpa using hj)]
  simp

/-- Witness for C8 at `[[], [0]]`: the empty head list becomes the all-one
row, and row 1 has a 1 at index 0. -/
theorem binarize_multi_hot_spec_witness :
    (binarize_multi_hot [[], [0]]).getD 0 []
        = List.replicate (([[], [0]] : List (List Int)).length + 1) 1
      ∧ ((binarize_multi_hot [[], [0]]).getD 1 []).getD 0 0
        = if Int.ofNat 0 ∈ ([[], [0]] : List (List Int)).getD 1 [] then 1 else 0 :=
  ⟨((binarize_multi_hot_spec [[], [0]]).2 0 (by decide)).2.1 (by decide),
    ((binarize_multi_hot_spec [[], [0]]).2 1 (by decide)).2.2 (by decide) 0 (by decide)⟩

/-- Claim C9: on singleton head lists, `binarize_multi_hot` coincides with
`binarize`: `binarize_multi_hot [[p] for p in preds] == binarize(preds)`. -/
theorem binarize_multi_hot_refines_binarize (preds : List Int) :
    binarize_multi_hot (preds.map (fun p => [p])) = binarize preds := by
rw [binarize_multi_hot, binarize, List.map_map]
apply List.map_congr_left
intro p _
simp only [Function.comp]
rw [if_neg (by simp)]
simp [List.length_map]

end Absa

/-! ## Theorems about the sentiment dataset preparation -/

namespace Sentiment

/-- Claim C6: `review_to_sentiment` labels a review `["positive", normalized text]`
exactly when its score is greater than 0, `["negative", normalized text]`
exactly when it is less than 0, and `["neutral", normalized text]` exactly
when it equals 0. -/
theorem review_to_sentiment_spec (normalize : String → String) (review : ℚ × String) :
    (review_to_sentiment normalize review = ("positive", normalize review.2) ↔ 0 < review.1)
      ∧ (review_to_sentiment normalize review = ("negative", normalize review.2) ↔ review.1 < 0)
      ∧ (review_to_sentiment normalize review = ("neutral", normalize review.2) ↔ review.1 = 0) := by
rw [review_to_sentiment]
rcases lt_trichotomy review.1 0 with h | h | h
· rw [if_neg (by exact not_lt.mpr (le_of_lt h)), if_pos h]
  simp [Prod.ext_iff, asymm h, h, ne_of_lt h]
· rw [if_neg (by rw [h]; exact lt_irrefl 0), if_neg (by rw [h]; exact lt_irrefl 0)]
  simp [Prod.ext_iff, h]
· rw [if_pos h]
  simp [Prod.ext_iff, h, asymm h, (ne_of_gt h)]

/-- Witness for C6: a review with score 2 is labelled positive. -/
theorem review_to_sentiment_spec_witness :
    review_to_sentiment id ((2 : ℚ), "good") = ("positive", id "good") :=
  (review_to_sentiment_spec id ((2 : ℚ), "good")).1.mpr (by norm_num)

end Sentiment

/-! ## Theorems about the reading-comprehension training script -/

namespace RC

/-- Claim C5: the session is restored from the stored checkpoint exactly when
`--restore_training` is set and a checkpoint whose file (or `.index` v2 file)
exists is found in the model directory; otherwise the variables are freshly
initialized, and in both cases training runs for the configured number of
epochs. -/
theorem train_restore_spec (a : RCArgs) (e : CkptEnv) :
    (∀ p, e.checkpoint_path = some p →
        (sessionStart a e = .restored p
          ↔ (a.restore_training = true
              ∧ (e.gfileExists p = true ∨ e.gfileExists (p ++ ".index") = true))))
      ∧ (e.checkpoint_path = none → sessionStart a e = .freshInit)
      ∧ (epochSchedule a).length = a.epochs := by
refine ⟨?_, ?_, by simp [epochSchedule]⟩
· intro p hp
  have hs : sessionStart a e
      = if (a.restore_training && (e.gfileExists p || e.gfileExists (p ++ ".index"))) = true
        then SessStart.restored p else SessStart.freshInit := by
    rw [sessionStart, hp]
  rw [hs]
  by_cases hc : (a.restore_training && (e.gfileExists p || e.gfileExists (p ++ ".index"))) = true
  · rw [if_pos hc]
    simp only [Bool.and_eq_true, Bool.or_eq_true] at hc
    simp [hc]
  · rw [if_neg hc]
    simp only [Bool.and_eq_true, Bool.or_eq_true] at hc
    constructor
    · intro he
      cases he
    · intro hcond
      exact absurd hcond hc
· intro hp
  rw [sessionStart, hp]

end RC

namespace RC

/-- Witness for C5: with the flag set and an existing checkpoint file, the
session is restored, and 3 configured epochs yield 3 training iterations. -/
theorem train_restore_spec_witness :
    sessionStart ⟨true, 3⟩ ⟨some "best_model.chk", fun s => s == "best_model.chk"⟩
        = SessStart.restored "best_model.chk"
      ∧ (epochSchedule ⟨true, 3⟩).length = 3 :=
  ⟨((train_restore_spec ⟨true, 3⟩ ⟨some "best_model.chk", fun s => s == "best_model.chk"⟩).1
      "best_model.chk" rfl).mpr ⟨rfl, Or.inl (by decide)⟩,
    (train_restore_spec ⟨true, 3⟩ ⟨some "best_model.chk", fun s => s == "best_model.chk"⟩).2.2⟩

end RC

/-! ## Theorems about the set-expansion corpus preparation script -/

namespace SetExp

theorem markLoop_append (nm : List Char → List Char → List Char) (mk : List Char) :
    ∀ (l1 l2 : List SpacyToken) (ls : LoopState),
    markLoop nm mk (l1 ++ l2) ls = markLoop nm mk l2 (markLoop nm mk l1 ls)
  | [], _, _ => rfl
  | t :: ts, l2, ls => by
      rw [List.cons_append, markLoop, markLoop, markLoop_append nm mk ts l2]

theorem writeToken_eq (t : SpacyToken) (out : List (List Char)) :
    writeToken t out = out ++ outTokenWrites t := by
rw [writeToken, outTokenWrites]
by_cases h : 0 < (pyStrip t.text).length
· rw [if_pos h, if_pos h]
· rw [if_neg h, if_neg h, List.append_nil]

theorem markStep_outside (nm : List Char → List Char → List Char) (mk : List Char)
    (t : SpacyToken) (ls : LoopState)
    (h : ∀ sp, ls.span = some sp → outsideSpan t sp) :
    markStep nm mk t ls = { ls with out := ls.out ++ outTokenWrites t } := by
rcases hq : ls.span with _ | sp
· simp only [markStep, hq, writeToken_eq]
· have ho := h sp hq
  rw [outsideSpan] at ho
  simp only [markStep, hq]
  rw [if_pos ho, writeToken_eq]

theorem markLoop_outside (nm : List Char → List Char → List Char) (mk : List Char) :
    ∀ (ts : List SpacyToken) (ls : LoopState),
    (∀ sp, ls.span = some sp → ∀ t ∈ ts, outsideSpan t sp) →
    markLoop nm mk ts ls = { ls with out := ls.out ++ outsideWrites ts }
  | [], ls, _ => by simp [markLoop, outsideWrites]
  | t :: ts, ls, h => by
      rw [markLoop,
        markStep_outside nm mk t ls (fun sp hsp => h sp hsp t (List.mem_cons_self t ts)),
        markLoop_outside nm mk ts { ls with out := ls.out ++ outTokenWrites t }
          (fun sp hsp t' ht' => h sp hsp t' (List.mem_cons_of_mem t ht'))]
      simp [outsideWrites]

theorem markStep_inseg_write (nm : List Char → List Char → List Char) (mk : List Char)
    (t : SpacyToken) (sp : SpacySpan) (ls : LoopState)
    (hsp : ls.span = some sp) (hw : ls.spanWritten = false)
    (hin : ¬ outsideSpan t sp) (hnc : ¬ closesSpan t sp) :
    markStep nm mk t ls =
      { ls with
        st := updateDicts nm sp ls.st
        out := ls.out ++ [markedText mk (nm sp.text sp.lemma_) (updateDicts nm sp ls.st) ++ [' ']]
        spanWritten := true } := by
rw [outsideSpan] at hin
rw [closesSpan] at hnc
simp only [markStep, hsp, hw]
rw [if_neg hin, if_neg hnc]
simp

theorem markStep_inseg_write_close (nm : List Char → List Char → List Char) (mk : List Char)
    (t : SpacyToken) (sp : SpacySpan) (ls : LoopState)
    (hsp : ls.span = some sp) (hw : ls.spanWritten = false)
    (hin : ¬ outsideSpan t sp) (hc : closesSpan t sp) :
    markStep nm mk t ls =
      { ls with
        st := updateDicts nm sp ls.st
        out := ls.out ++ [markedText mk (nm sp.text sp.lemma_) (updateDicts nm sp ls.st) ++ [' ']]
        span := ls.spans.head?
        spans := ls.spans.tail
        spanWritten := false } := by
rw [outsideSpan] at hin
rw [closesSpan] at hc
simp only [markStep, hsp, hw]
rw [if_neg hin, if_pos hc]
rcases hs : ls.spans with _ | ⟨sp2, rest⟩ <;> simp [hs]

theorem markStep_inseg_skip (nm : List Char → List Char → List Char) (mk : List Char)
    (t : SpacyToken) (sp : SpacySpan) (ls : LoopState)
    (hsp : ls.span = some sp) (hw : ls.spanWritten = true)
    (hin : ¬ outsideSpan t sp) (hnc : ¬ closesSpan t sp) :
    markStep nm mk t ls = ls := by
rw [outsideSpan] at hin
rw [closesSpan] at hnc
simp only [markStep, hsp, hw]
rw [if_neg hin, if_neg hnc]
simp

theorem markStep_inseg_close (nm : List Char → List Char → List Char) (mk : List Char)
    (t : SpacyToken) (sp : SpacySpan) (ls : LoopState)
    (hsp : ls.span = some sp) (hw : ls.spanWritten = true)
    (hin : ¬ outsideSpan t sp) (hc : closesSpan t sp) :
    markStep nm mk t ls =
      { ls with span := ls.spans.head?, spans := ls.spans.tail, spanWritten := false } := by
rw [outsideSpan] at hin
rw [closesSpan] at hc
simp only [markStep, hsp, hw]
rw [if_neg hin, if_pos hc]
rcases hs : ls.spans with _ | ⟨sp2, rest⟩ <;> simp [hs]

theorem markLoop_seg_written (nm : List Char → List Char → List Char) (mk : List Char) :
    ∀ (seg : List SpacyToken) (sp : SpacySpan) (ls : LoopState),
    ls.span = some sp → ls.spanWritten = true →
    (∀ t ∈ seg, ¬ outsideSpan t sp) →
    (∀ t ∈ seg.dropLast, ¬ closesSpan t sp) →
    (∀ t ∈ seg.getLast?.toList, closesSpan t sp) →
    seg ≠ [] →
    markLoop nm mk seg ls
      = { ls with span := ls.spans.head?, spans := ls.spans.tail, spanWritten := false }
  | [], _, _, _, _, _, _, _, hne => absurd rfl hne
  | [t], sp, ls, hsp, hw, hin, _, hlast, _ => by
      rw [markLoop, markLoop,
        markStep_inseg_close nm mk t sp ls hsp hw (hin t (List.mem_cons_self t []))
          (hlast t (by simp))]
  | t :: t' :: seg, sp, ls, hsp, hw, hin, hmid, hlast, _ => by
      rw [markLoop,
        markStep_inseg_skip nm mk t sp ls hsp hw (hin t (List.mem_cons_self t (t' :: seg)))
          (hmid t (List.mem_cons_self t (t' :: seg).dropLast))]
      exact markLoop_seg_written nm mk (t' :: seg) sp ls hsp hw
        (fun u hu => hin u (List.mem_cons_of_mem t hu))
        (fun u hu => hmid u (List.mem_cons_of_mem t hu))
        (fun u hu => hlast u hu)
        (by simp)

theorem markLoop_seg (nm : List Char → List Char → List Char) (mk : List Char)
    (seg : List SpacyToken) (sp : SpacySpan) (ls : LoopState)
    (hsp : ls.span = some sp) (hw : ls.spanWritten = false) (hne : seg ≠ [])
    (hin : ∀ t ∈ seg, ¬ outsideSpan t sp)
    (hmid : ∀ t ∈ seg.dropLast, ¬ closesSpan t sp)
    (hlast : ∀ t ∈ seg.getLast?.toList, closesSpan t sp) :
    markLoop nm mk seg ls
      = { ls with
          st := updateDicts nm sp ls.st
          out := ls.out ++ [markedText mk (nm sp.text sp.lemma_) (updateDicts nm sp ls.st) ++ [' ']]
          span := ls.spans.head?
          spans := ls.spans.tail
          spanWritten := false } := by
cases seg with
| nil => exact absurd rfl hne
| cons t rest =>
    cases rest with
    | nil =>
        rw [markLoop, markLoop,
          markStep_inseg_write_close nm mk t sp ls hsp hw (hin t (List.mem_cons_self t []))
            (hlast t (by simp))]
    | cons t' rest' =>
        rw [markLoop,
          markStep_inseg_write nm mk t sp ls hsp hw (hin t (List.mem_cons_self t (t' :: rest')))
            (hmid t (List.mem_cons_self t (t' :: rest').dropLast))]
        exact markLoop_seg_written nm mk (t' :: rest') sp _ hsp rfl
          (fun u hu => hin u (List.mem_cons_of_mem t hu))
          (fun u hu => hmid u (List.mem_cons_of_mem t hu))
          (fun u hu => hlast u hu)
          (by simp)

theorem markLoop_chunks (nm : List Char → List Char → List Char) (mk : List Char) :
    ∀ (cs : List Chunk) (st : NPState) (o : List (List Char)),
    chunksWF cs →
    markLoop nm mk (cs.flatMap chunkTokens)
      { st := st, span := (cs.map Chunk.span).head?, spans := (cs.map Chunk.span).tail,
        spanWritten := false, out := o }
      = { st := (specProcess nm mk cs st).1, span := none, spans := [], spanWritten := false,
          out := o ++ (specProcess nm mk cs st).2 }
  | [], st, o, _ => by simp [markLoop, specProcess]
  | c :: cs, st, o, hwf => by
      obtain ⟨hc, haft, hrest⟩ := hwf
      obtain ⟨hne, hin, hmid, hlast⟩ := hc
      rw [List.flatMap_cons, chunkTokens, List.append_assoc, markLoop_append,
        List.map_cons, List.head?_cons, List.tail_cons, markLoop_append]
      rw [markLoop_seg nm mk c.seg c.span
          { st := st, span := some c.span, spans := cs.map Chunk.span,
            spanWritten := false, out := o }
          rfl rfl hne hin hmid hlast]
      have hout : ∀ sp, ((cs.map Chunk.span).head? : Option SpacySpan) = some sp →
          ∀ t ∈ c.after, outsideSpan t sp := by
        intro sp hsp t ht
        cases cs with
        | nil => simp at hsp
        | cons c' cs' =>
            simp only [List.map_cons, List.head?_cons, Option.some.injEq] at hsp
            subst hsp
            exact haft c' (by simp) t ht
      rw [markLoop_outside nm mk c.after
          { st := updateDicts nm c.span st
            span := (cs.map Chunk.span).head?
            spans := (cs.map Chunk.span).tail
            spanWritten := false
            out := o ++ [markedText mk (nm c.span.text c.span.lemma_) (updateDicts nm c.span st) ++ [' ']] }
          (fun sp hsp t ht => hout sp hsp t ht)]
      rw [markLoop_chunks nm mk cs (updateDicts nm c.span st)
          ((o ++ [markedText mk (nm c.span.text c.span.lemma_) (updateDicts nm c.span st) ++ [' ']])
            ++ outsideWrites c.after) hrest]
      simp [specProcess, List.append_assoc]

/-- Claim C7: on a well-formed document (leading outside tokens, then spaCy's
token-aligned noun-phrase chunks each followed by outside tokens), the marking
loop writes, in document order: every whitespace-stripped non-empty outside
token verbatim followed by a space, and each noun-phrase span exactly once, as
its group's current representative with every space replaced by the mark
string and the mark string appended (then the separating space). -/
theorem markDoc_spec (nm : List Char → List Char → List Char) (mk : List Char)
    (pre : List SpacyToken) (cs : List Chunk) (st : NPState)
    (hwf : chunksWF cs) (hpre : preWF pre cs) :
    markDoc nm mk (pre ++ cs.flatMap chunkTokens) (cs.map Chunk.span) st
      = { st := (specProcess nm mk cs st).1, span := none, spans := [], spanWritten := false,
          out := outsideWrites pre ++ (specProcess nm mk cs st).2 } := by
rw [markDoc, markLoop_append]
have hout : ∀ sp, ((cs.map Chunk.span).head? : Option SpacySpan) = some sp →
    ∀ t ∈ pre, outsideSpan t sp := by
  intro sp hsp t ht
  cases cs with
  | nil => simp at hsp
  | cons c' cs' =>
      simp only [List.map_cons, List.head?_cons, Option.some.injEq] at hsp
      subst hsp
      exact hpre c' (by simp) t ht
rw [markLoop_outside nm mk pre
    { st := st, span := (cs.map Chunk.span).head?, spans := (cs.map Chunk.span).tail,
      spanWritten := false, out := [] }
    (fun sp hsp t ht => hout sp hsp t ht)]
rw [markLoop_chunks nm mk cs st ([] ++ outsideWrites pre) hwf]
simp

theorem lookup_setKey_self {β : Type} (k : List Char) (v : β) :
    ∀ (l : List (List Char × β)), (setKey l k v).lookup k = some v
  | [] => by simp [setKey, List.lookup]
  | (k', v') :: rest => by
      by_cases h : k' = k
      · rw [setKey, if_pos h]
        simp [List.lookup]
      · rw [setKey, if_neg h]
        have hb : (k == k') = false := by
          simp only [beq_eq_false_iff_ne, ne_eq]
          exact fun he => h he.symm
        simp only [List.lookup, hb]
        exact lookup_setKey_self k v rest

theorem lookup_setKey_ne {β : Type} (k k' : List Char) (v : β) (hne : k' ≠ k) :
    ∀ (l : List (List Char × β)), (setKey l k v).lookup k' = l.lookup k'
  | [] => by
      have hb : (k' == k) = false := by
        simp only [beq_eq_false_iff_ne, ne_eq]
        exact hne
      simp [setKey, List.lookup, hb]
  | (a, b) :: rest => by
      by_cases h : a = k
      · rw [setKey, if_pos h]
        have hb : (k' == k) = false := by
          simp only [beq_eq_false_iff_ne, ne_eq]
          exact hne
        have hb2 : (k' == a) = false := by
          simp only [beq_eq_false_iff_ne, ne_eq]
          rw [h]
          exact hne
        simp only [List.lookup, hb, hb2]
      · rw [setKey, if_neg h]
        by_cases h2 : k' = a
        · have hb : (k' == a) = true := by
            simp only [beq_iff_eq]
            exact h2
          simp only [List.lookup, hb]
        · have hb : (k' == a) = false := by
            simp only [beq_eq_false_iff_ne, ne_eq]
            exact h2
          simp only [List.lookup, hb]
          exact lookup_setKey_ne k k' v hne rest

theorem map_fst_setKey_mem {β : Type} (k : List Char) (v : β) :
    ∀ (l : List (List Char × β)), k ∈ l.map Prod.fst →
    (setKey l k v).map Prod.fst = l.map Prod.fst
  | [], hm => by simp at hm
  | (a, b) :: rest, hm => by
      by_cases h : a = k
      · rw [setKey, if_pos h]
        simp [h]
      · rw [setKey, if_neg h]
        have hm2 : k ∈ rest.map Prod.fst := by
          rcases List.mem_cons.mp hm with he | hm2
          · exact absurd he.symm h
          · exact hm2
        simp only [List.map_cons]
        rw [map_fst_setKey_mem k v rest hm2]

theorem map_fst_setKey_not_mem {β : Type} (k : List Char) (v : β) :
    ∀ (l : List (List Char × β)), k ∉ l.map Prod.fst →
    (setKey l k v).map Prod.fst = l.map Prod.fst ++ [k]
  | [], _ => by simp [setKey]
  | (a, b) :: rest, hm => by
      have h : a ≠ k := by
        intro he
        refine hm ?_
        rw [List.map_cons, he]
        exact List.mem_cons_self k _
      rw [setKey, if_neg h]
      have hm2 : k ∉ rest.map Prod.fst := by
        intro hk
        refine hm ?_
        rw [List.map_cons]
        exact List.mem_cons_of_mem a hk
      simp only [List.map_cons, List.cons_append]
      rw [map_fst_setKey_not_mem k v rest hm2]

theorem lookup_isSome_iff {β : Type} (k : List Char) :
    ∀ (l : List (List Char × β)), (l.lookup k).isSome = true ↔ k ∈ l.map Prod.fst
  | [] => by simp [List.lookup]
  | (a, b) :: rest => by
      by_cases h : k = a
      · subst h
        simp only [List.lookup, beq_self_eq_true, Option.isSome_some, List.map_cons,
          List.mem_cons]
        constructor
        · intro _
          exact Or.inl trivial
        · intro _
          exact trivial
      · have hb : (k == a) = false := by
          simp only [beq_eq_false_iff_ne, ne_eq]
          exact h
        simp only [List.lookup, hb, List.map_cons, List.mem_cons]
        rw [lookup_isSome_iff k rest]
        constructor
        · intro hm
          exact Or.inr hm
        · intro hm
          rcases hm with he | hm
          · exact absurd he h
          · exact hm

theorem NPInv_intro (a : List (List Char × List Char))
    (g : List (List Char × List (List Char)))
    (r : List (List Char × List Char)) (c : List (List Char × Nat))
    (h1 : g.map Prod.fst = r.map Prod.fst)
    (h2 : ∀ norm gg rr, g.lookup norm = some gg → r.lookup norm = some rr → rr ∈ gg) :
    NPInv ⟨a, g, r, c⟩ :=
  ⟨h1, h2⟩

theorem NPInv_branches (G : List (List Char × List (List Char)))
    (R : List (List Char × List Char)) (a : List (List Char × List Char))
    (c : List (List Char × Nat)) (n x : List Char) (cnt : Prop) [Decidable cnt]
    (hkeys : G.map Prod.fst = R.map Prod.fst)
    (hmem : ∀ norm g r, G.lookup norm = some g → R.lookup norm = some r → r ∈ g) :
    NPInv
      (if hasKey G n = true then
        if x ∉ (G.lookup n).getD [] then
          ⟨a, setKey G n ((G.lookup n).getD [] ++ [x]),
            if hasKey R n = true then R else setKey R n x, c⟩
        else if cnt then
          ⟨a, G, setKey (if hasKey R n = true then R else setKey R n x) n x, c⟩
        else ⟨a, G, if hasKey R n = true then R else setKey R n x, c⟩
      else
        ⟨a, setKey G n [x], setKey (if hasKey R n = true then R else setKey R n x) n x, c⟩) := by
by_cases hgk : hasKey G n = true
· rw [if_pos hgk]
  have hnmemG : n ∈ G.map Prod.fst := by
    rw [← lookup_isSome_iff]
    rw [hasKey] at hgk
    exact hgk
  have hnmemR : n ∈ R.map Prod.fst := by
    rw [← hkeys]
    exact hnmemG
  have hrk : hasKey R n = true := by
    rw [hasKey, lookup_isSome_iff]
    exact hnmemR
  rw [if_pos hrk]
  obtain ⟨g, hgl⟩ := Option.isSome_iff_exists.mp (by rw [hasKey] at hgk; exact hgk)
  rw [hgl]
  simp only [Option.getD_some]
  by_cases hx : x ∈ g
  · rw [if_neg (not_not_intro hx)]
    split
    · exact NPInv_intro _ _ _ _
        (by
          rw [map_fst_setKey_mem _ _ _ hnmemR]
          exact hkeys)
        (fun n' g' r' hg' hr' => by
          by_cases he : n' = n
          · subst he
            rw [hgl] at hg'
            cases hg'
            rw [lookup_setKey_self] at hr'
            cases hr'
            exact hx
          · rw [lookup_setKey_ne _ _ _ he] at hr'
            exact hmem n' g' r' hg' hr')
    · exact NPInv_intro _ _ _ _ hkeys hmem
  · rw [if_pos hx]
    exact NPInv_intro _ _ _ _
      (by
        rw [map_fst_setKey_mem _ _ _ hnmemG]
        exact hkeys)
      (fun n' g' r' hg' hr' => by
        by_cases he : n' = n
        · subst he
          rw [lookup_setKey_self] at hg'
          cases hg'
          exact List.mem_append_left _ (hmem _ g r' hgl hr')
        · rw [lookup_setKey_ne _ _ _ he] at hg'
          exact hmem n' g' r' hg' hr')
· rw [if_neg hgk]
  have hnG : n ∉ G.map Prod.fst := by
    intro hmm
    rw [← lookup_isSome_iff] at hmm
    rw [hasKey] at hgk
    exact hgk hmm
  have hnR : n ∉ R.map Prod.fst := by
    rw [← hkeys]
    exact hnG
  have hrk : ¬ hasKey R n = true := by
    rw [hasKey]
    intro hmm
    rw [lookup_isSome_iff] at hmm
    exact hnR hmm
  rw [if_neg hrk]
  exact NPInv_intro _ _ _ _
    (by
      rw [map_fst_setKey_not_mem _ _ _ hnG,
        map_fst_setKey_mem _ _ _ (by
          rw [map_fst_setKey_not_mem _ _ _ hnR]
          exact List.mem_append_right _ (List.mem_cons_self _ [])),
        map_fst_setKey_not_mem _ _ _ hnR, hkeys])
    (fun n' g' r' hg' hr' => by
      by_cases he : n' = n
      · subst he
        rw [lookup_setKey_self] at hg'
        rw [lookup_setKey_self] at hr'
        cases hg'
        cases hr'
        exact List.mem_cons_self _ []
      · rw [lookup_setKey_ne _ _ _ he] at hg'
        rw [lookup_setKey_ne _ _ _ he, lookup_setKey_ne _ _ _ he] at hr'
        exact hmem n' g' r' hg' hr')

theorem updateDicts_NPInv (nm : List Char → List Char → List Char) (sp : SpacySpan)
    (st : NPState) (h : NPInv st) : NPInv (updateDicts nm sp st) := by
obtain ⟨hkeys, hmem⟩ := h
rw [updateDicts]
exact NPInv_branches st.id2group st.id2rep _ _ (nm sp.text sp.lemma_) sp.text _ hkeys hmem

/-- Witness for C7 on the example document "I ate red apples": the two leading
tokens are written verbatim and the noun phrase once, marked. -/
theorem markDoc_spec_witness :
    markDoc exNorm ['_']
        ([⟨0, ['I']⟩, ⟨2, ['a', 't', 'e']⟩] ++ [exChunk].flatMap chunkTokens)
        ([exChunk].map Chunk.span) initState
      = { st := (specProcess exNorm ['_'] [exChunk] initState).1, span := none, spans := [],
          spanWritten := false,
          out := outsideWrites [⟨0, ['I']⟩, ⟨2, ['a', 't', 'e']⟩]
            ++ (specProcess exNorm ['_'] [exChunk] initState).2 } :=
  markDoc_spec exNorm ['_'] [⟨0, ['I']⟩, ⟨2, ['a', 't', 'e']⟩] [exChunk] initState
    (by decide) (by decide)

theorem markStep_st (nm : List Char → List Char → List Char) (mk : List Char)
    (t : SpacyToken) (ls : LoopState) :
    (markStep nm mk t ls).st = ls.st
      ∨ ∃ sp, (markStep nm mk t ls).st = updateDicts nm sp ls.st := by
rcases hq : ls.span with _ | sp
· left
  simp [markStep, hq]
· simp only [markStep, hq]
  by_cases ho : t.idx < sp.start_char ∨ sp.end_char ≤ t.idx
  · left
    rw [if_pos ho]
  · rw [if_neg ho]
    by_cases hw : ls.spanWritten = true
    · left
      simp only [hw]
      by_cases hc : t.idx + t.text.length = sp.end_char
      · rw [if_pos hc]
        rcases hs : ls.spans with _ | ⟨sp2, rest⟩ <;> simp [hs]
      · rw [if_neg hc]
        simp
    · right
      refine ⟨sp, ?_⟩
      have hw' : ls.spanWritten = false := by
        rcases Bool.eq_false_or_eq_true ls.spanWritten with h | h
        · exact absurd h hw
        · exact h
      simp only [hw']
      by_cases hc : t.idx + t.text.length = sp.end_char
      · rw [if_pos hc]
        rcases hs : ls.spans with _ | ⟨sp2, rest⟩ <;> simp [hs]
      · rw [if_neg hc]
        simp

theorem markLoop_NPInv (nm : List Char → List Char → List Char) (mk : List Char) :
    ∀ (ts : List SpacyToken) (ls : LoopState),
    NPInv ls.st → NPInv (markLoop nm mk ts ls).st
  | [], _, h => h
  | t :: ts, ls, h => by
      rw [markLoop]
      refine markLoop_NPInv nm mk ts _ ?_
      rcases markStep_st nm mk t ls with he | ⟨sp, he⟩
      · rw [he]
        exact h
      · rw [he]
        exact updateDicts_NPInv nm sp ls.st h

/-- Claim C10: the marking loop preserves the grouping-dictionary invariant — after
any number of token steps (in particular after each processed span),
`id2group` and `id2rep` bind exactly the same keys, and the representative
stored for a key is always a member of that key's group. -/
theorem markLoop_dict_inv (nm : List Char → List Char → List Char) (mk : List Char)
    (ts : List SpacyToken) (ls : LoopState) (h : NPInv ls.st) :
    NPInv (markLoop nm mk ts ls).st
      ∧ (∀ k, hasKey (markLoop nm mk ts ls).st.id2group k
            = hasKey (markLoop nm mk ts ls).st.id2rep k)
      ∧ ∀ norm g r, (markLoop nm mk ts ls).st.id2group.lookup norm = some g →
          (markLoop nm mk ts ls).st.id2rep.lookup norm = some r → r ∈ g := by
have hinv := markLoop_NPInv nm mk ts ls h
refine ⟨hinv, ?_, hinv.2⟩
intro k
rw [hasKey, hasKey, Bool.eq_iff_iff, lookup_isSome_iff, lookup_isSome_iff, hinv.1]

/-- Witness for C10: the invariant holds after running the loop over the
example document starting from the empty dictionaries. -/
theorem markLoop_dict_inv_witness :
    NPInv (markLoop exNorm ['_'] exTokens
        { st := initState, span := some exSpan, spans := [], spanWritten := false,
          out := [] }).st :=
  (markLoop_dict_inv exNorm ['_'] exTokens
    { st := initState, span := some exSpan, spans := [], spanWritten := false, out := [] }
    ⟨rfl, fun norm g r hg _ => by simp [List.lookup] at hg⟩).1

end SetExp
